import Mathlib

/-!
Shallow embedding of `src/bin/maketree.rs` (the `maketree` binary of the
`floppy` repository): the tree-text line classifier, the directory-inference
pass, and the filesystem materialization driver.

Rust `&str` values are modelled as lists of unicode scalar values
(`List Char`).  The Rust code indexes and slices strings by BYTE offsets
(`line.find` returns a byte index, `&s[i..j]` is a byte-range slice that
panics when a bound is not a character boundary), so byte arithmetic is made
explicit: `utf8Len c` is the UTF-8 width of a character and the slicing
helpers walk the character list counting bytes, returning `none` exactly when
the Rust slice would panic.
-/

namespace Maketree

abbrev Str := List Char

/-- UTF-8 encoded width, in bytes, of one unicode scalar value (what
`char::len_utf8` returns in Rust). -/
def utf8Len (c : Char) : Nat :=
  if c.toNat < 0x80 then 1
  else if c.toNat < 0x800 then 2
  else if c.toNat < 0x10000 then 3
  else 4

/-- Byte length of a string, i.e. Rust `str::len`. -/
def byteLen (s : Str) : Nat := (s.map utf8Len).sum

/-- Unicode `White_Space` property, i.e. Rust `char::is_whitespace`. -/
def rustIsWhitespace (c : Char) : Bool :=
  decide ((9 ≤ c.toNat ∧ c.toNat ≤ 13) ∨ c.toNat = 32 ∨ c.toNat = 0x85 ∨
    c.toNat = 0xA0 ∨ c.toNat = 0x1680 ∨ (0x2000 ≤ c.toNat ∧ c.toNat ≤ 0x200A) ∨
    c.toNat = 0x2028 ∨ c.toNat = 0x2029 ∨ c.toNat = 0x202F ∨
    c.toNat = 0x205F ∨ c.toNat = 0x3000)

/-- Rust `char::is_ascii_digit`. -/
def isAsciiDigit (c : Char) : Bool :=
  decide (48 ≤ c.toNat ∧ c.toNat ≤ 57)

/-- Drop trailing whitespace (the second half of Rust `str::trim`). -/
def dropTrailingWs (s : Str) : Str :=
  (s.reverse.dropWhile rustIsWhitespace).reverse

/-- Rust `str::trim`: strip leading and trailing `White_Space` characters. -/
def trim (s : Str) : Str :=
  dropTrailingWs (s.dropWhile rustIsWhitespace)

/-- Does `pat` occur at the very start of `s`?  (`str::starts_with`, and the
anchor test used by substring search.) -/
def isPrefixC {α : Type} [DecidableEq α] : List α → List α → Bool
  | [], _ => true
  | _ :: _, [] => false
  | a :: as, b :: bs => if a = b then isPrefixC as bs else false

/-- Rust `str::contains(pat)`: `pat` occurs as a contiguous substring of `s`.
(For the patterns used by `maketree` a byte-level match can only start on a
character boundary, because UTF-8 is self-synchronizing, so the character
level search is exact.) -/
def containsSub : Str → Str → Bool
  | s, pat =>
    if isPrefixC pat s then true
    else match s with
      | [] => false
      | _ :: t => containsSub t pat

/-- Rust `str::find(pat)`: BYTE index of the first occurrence of `pat`.
`acc` accumulates the byte offset of the scan position.  (Again exact for the
`"── "` pattern of `maketree`: its first byte 0xE2 is a UTF-8 leading byte,
so a byte-level match always starts on a character boundary.) -/
def findSub : Str → Str → Nat → Option Nat
  | s, pat, acc =>
    if isPrefixC pat s then some acc
    else match s with
      | [] => none
      | c :: t => findSub t pat (acc + utf8Len c)

/-- The Rust byte-range suffix slice `&s[i..]`.  Returns `none` exactly when
`i` is not a character boundary of `s` (or exceeds its byte length), which is
where the Rust code panics. -/
def sliceFromByte : Str → Nat → Option Str
  | s, 0 => some s
  | [], _ + 1 => none
  | c :: t, n + 1 =>
    if utf8Len c ≤ n + 1 then sliceFromByte t (n + 1 - utf8Len c) else none

/-- The Rust byte-range prefix slice `&s[..i]`.  Returns `none` exactly when
`i` is not a character boundary of `s` (or exceeds its byte length). -/
def sliceToByte : Str → Nat → Option Str
  | _, 0 => some []
  | [], _ + 1 => none
  | c :: t, n + 1 =>
    if utf8Len c ≤ n + 1 then (sliceToByte t (n + 1 - utf8Len c)).map (c :: ·)
    else none

/-- Result of running a piece of Rust code that may panic. -/
inductive PanicOr (α : Type) : Type
  | panic : PanicOr α
  | ok (a : α) : PanicOr α
deriving DecidableEq, Repr

/-- The connector pattern `"── "` searched by `parse_tree_style_depth`
(two `U+2500` box-drawing horizontals and a space; 7 bytes). -/
def connPat : Str := ['─', '─', ' ']

/-- The continuation chunk `"│   "` (`U+2502` and three spaces; 6 bytes). -/
def barChunk : Str := ['│', ' ', ' ', ' ']

/-- The plain indentation chunk `"    "` (four spaces; 4 bytes). -/
def spaceChunk : Str := [' ', ' ', ' ', ' ']

/-- The chunk-scanning `while` loop of `parse_tree_style_depth`: `p` is the
not-yet-scanned suffix of the prefix before the connector (the loop variable
`i` is the byte offset of this suffix).  While at least 4 bytes remain, the
4-BYTE slice `&prefix[i..i + 4]` is compared against `"│   "` and `"    "`;
a match advances by 4 bytes and increments the depth, anything else stops the
scan.  The slice panics when `i + 4` is not a character boundary.  The `fuel`
argument only bounds the recursion: every iteration consumes at least one
character, so starting the fuel at `p.length` (as `treeChunkLoop` does) the
`0` case is reached only with `p` too short for another iteration, where it
returns the same `.ok 0` as the loop exit. -/
def treeChunkLoopGo : Nat → Str → PanicOr Nat
  | 0, _ => .ok 0
  | fuel + 1, p =>
    if 4 ≤ byteLen p then
      match sliceToByte p 4 with
      | none => .panic
      | some chunk =>
        if chunk = barChunk ∨ chunk = spaceChunk then
          match sliceFromByte p 4 with
          | none => .panic
          | some rest =>
            match treeChunkLoopGo fuel rest with
            | .panic => .panic
            | .ok d => .ok (d + 1)
        else .ok 0
    else .ok 0

def treeChunkLoop (p : Str) : PanicOr Nat := treeChunkLoopGo p.length p

/-- Embedding of `parse_tree_style_depth` (maketree.rs:73-93).  Finds the
first byte position of `"── "`; scans the prefix before it in 4-byte chunks
counting depth; the name is `line[conn_pos + 3..]` trimmed — note the Rust
code skips only 3 bytes of the 7-byte connector.  `.panic` models a Rust
panic from a byte slice falling on a non-boundary. -/
def parse_tree_style_depth (line : Str) : PanicOr (Option (Nat × Str)) :=
  match findSub line connPat 0 with
  | none => .ok none
  | some connPos =>
    match sliceToByte line connPos with
    | none => .panic
    | some prefixPart =>
      match treeChunkLoop prefixPart with
      | .panic => .panic
      | .ok depth =>
        match sliceFromByte line (connPos + 3) with
        | none => .panic
        | some tail => .ok (some (depth, trim tail))

/-- Embedding of `parse_indent_list_depth` (maketree.rs:95-101).  `leading`
counts leading whitespace CHARACTERS, but is then used as a BYTE index in
`line[leading..]`; the slice panics when that byte offset is not a character
boundary. -/
def parse_indent_list_depth (line : Str) : PanicOr (Nat × Str) :=
  let leading := (line.takeWhile rustIsWhitespace).length
  match sliceFromByte line leading with
  | none => .panic
  | some rest => .ok (leading / 2, trim rest)

/-- Embedding of `is_stats_line` (maketree.rs:60-71): the trimmed line has at
least one ASCII digit and contains both `"director"` and `"file"`. -/
def is_stats_line (s : Str) : Bool :=
  let t := trim s
  t.any isAsciiDigit && containsSub t ("director".toList) &&
    containsSub t ("file".toList)

/-- One parsed input line (struct `Entry`, maketree.rs:53-58). -/
structure Entry where
  depth : Nat
  name : Str
  is_dir : Bool
deriving DecidableEq, Repr

/-- The per-line body of the first pass of `collect_entries`
(maketree.rs:107-121): skip blank lines, a lone `"."` and stats lines (the
skip tests run BEFORE either notation parser); otherwise try the tree-style
parser and fall back to the indent-list parser, discarding empty names. -/
def classifyLine (raw : Str) : PanicOr (Option Entry) :=
  if trim raw = [] ∨ trim raw = ['.'] ∨ is_stats_line raw = true then .ok none
  else
    match parse_tree_style_depth raw with
    | .panic => .panic
    | .ok (some (depth, name)) =>
      .ok (some ⟨depth, name, name.getLast? = some '/'⟩)
    | .ok none =>
      match parse_indent_list_depth raw with
      | .panic => .panic
      | .ok (depth, name) =>
        if name = [] then .ok none
        else .ok (some ⟨depth, name, name.getLast? = some '/'⟩)

/-- The first pass of `collect_entries`: classify every line in order,
keeping the produced entries.  A panic on any line aborts the program. -/
def firstPass : List Str → PanicOr (List Entry)
  | [] => .ok []
  | l :: rest =>
    match classifyLine l with
    | .panic => .panic
    | .ok none => firstPass rest
    | .ok (some e) =>
      match firstPass rest with
      | .panic => .panic
      | .ok es => .ok (e :: es)

/-- One iteration of the second pass of `collect_entries`
(maketree.rs:125-132): if `entries[i]` is not already a directory and the
next entry is strictly deeper, set `entries[i].is_dir = true`. -/
def inferStep (l : List Entry) (i : Nat) : List Entry :=
  match l[i]? with
  | none => l
  | some e =>
    if e.is_dir then l
    else
      match l[i + 1]? with
      | none => l
      | some f => if e.depth < f.depth then l.set i { e with is_dir := true } else l

/-- The second pass of `collect_entries`: the `for i in 0..entries.len()`
loop applying `inferStep` at every index. -/
def infer_dirs (l : List Entry) : List Entry :=
  (List.range l.length).foldl inferStep l

/-- Embedding of `collect_entries` (maketree.rs:103-135): first pass, then
directory-inference pass. -/
def collect_entries (lines : List Str) : PanicOr (List Entry) :=
  match firstPass lines with
  | .panic => .panic
  | .ok es => .ok (infer_dirs es)

/-!
Filesystem model.  A path is the list of components pushed onto the
`PathBuf` after the initial `"."` (each parsed name is pushed as a single
component).  The filesystem is an association list from paths to nodes; the
empty path is the current working directory, which always exists and is a
directory.  A regular file carries its content so that theorems can speak
about content being left untouched; `touch` creates a file with empty
content and never truncates an existing one.
-/

/-- A filesystem node: a directory, or a regular file with its content. -/
inductive NodeKind : Type
  | dir : NodeKind
  | file (content : List Char) : NodeKind
deriving DecidableEq, Repr

abbrev FsPath := List Str

abbrev Fs := List (FsPath × NodeKind)

/-- Path existence / type query (`path.exists()`, `path.is_file()`,
`path.is_dir()`).  The empty path is the current working directory: always an
existing directory. -/
def lookupFs (fs : Fs) (p : FsPath) : Option NodeKind :=
  if p = [] then some .dir
  else (fs.find? (fun b => decide (b.1 = p))).map (·.2)

/-- The worker of `fs::create_dir_all`: walk the ancestors of the target
shortest-first, creating each missing one; an ancestor that exists as a
regular file is an I/O error (the state reached so far is kept). -/
def create_dir_all_go (fs : Fs) : List FsPath → Fs × Option FsPath
  | [] => (fs, none)
  | q :: rest =>
    match lookupFs fs q with
    | some .dir => create_dir_all_go fs rest
    | some (.file _) => (fs, some q)
    | none => create_dir_all_go ((q, .dir) :: fs) rest

/-- `fs::create_dir_all(p)`: create `p` and every missing ancestor; on
failure the second component names the offending path. -/
def create_dir_all (p : FsPath) (fs : Fs) : Fs × Option FsPath :=
  create_dir_all_go fs p.inits

/-- `fs::remove_file(p)`. -/
def remove_file (p : FsPath) (fs : Fs) : Fs :=
  fs.filter (fun b => decide (b.1 ≠ p))

/-- `fs::remove_dir_all(p)`: remove `p` and everything below it. -/
def remove_dir_all (p : FsPath) (fs : Fs) : Fs :=
  fs.filter (fun b => !isPrefixC p b.1)

/-- One line of program output, identified by its format string.  `would*`
messages go to stdout (`println!`), `info*`/`debug*` to stderr via
`eprintln_v`. -/
inductive Msg : Type
  | wouldRemoveFile (p : FsPath)
  | wouldMkdirP (p : FsPath)
  | wouldRemoveDir (p : FsPath)
  | wouldTouch (p : FsPath)
  | infoRemovingFileToCreateDir (p : FsPath)
  | infoRemovingDirToCreateFile (p : FsPath)
  | debugMkdir (p : FsPath)
  | debugTouch (p : FsPath)
deriving DecidableEq, Repr

/-- The `Options` struct (maketree.rs:7-13), minus the input-file field which
is consumed before the core runs. -/
structure Options : Type where
  dry_run : Bool
  force : Bool
  verbose : Nat
deriving DecidableEq, Repr

/-- The world the builder acts on: the filesystem plus the two output
streams (stdout `out`, stderr `errOut`), each a list of lines in emission
order. -/
structure St : Type where
  fs : Fs
  out : List Msg
  errOut : List Msg
deriving DecidableEq, Repr

/-- `eprintln_v` (maketree.rs:15-19): emit `m` on stderr when the verbosity
is at least `level`. -/
def eprintln_v (v level : Nat) (m : Msg) (st : St) : St :=
  if level ≤ v then { st with errOut := st.errOut ++ [m] } else st

/-- An error aborting the run: the two type-conflict errors raised by
`ensure_dir`/`touch_file` (each naming the path), or an I/O error from
`create_dir_all` hitting a file where a directory is needed. -/
inductive FsError : Type
  | fileExistsWhereDirExpected (p : FsPath)
  | dirExistsWhereFileExpected (p : FsPath)
  | ioError (p : FsPath)
deriving DecidableEq, Repr

/-- Embedding of `ensure_dir` (maketree.rs:137-164).  Returns the world after
the call together with `none` on success or the error raised.  (On error the
world reached so far is returned: the process aborts but the filesystem
persists.) -/
def ensure_dir (path : FsPath) (opts : Options) (st : St) : St × Option FsError :=
  match lookupFs st.fs path with
  | some (.file _) =>
    if opts.force then
      if opts.dry_run then
        ({ eprintln_v opts.verbose 1 (.infoRemovingFileToCreateDir path) st with
           out := (eprintln_v opts.verbose 1 (.infoRemovingFileToCreateDir path)
             st).out ++ [.wouldRemoveFile path] }, none)
      else
        match create_dir_all path (remove_file path st.fs) with
        | (fs2, none) =>
          ({ eprintln_v opts.verbose 1 (.infoRemovingFileToCreateDir path) st with
             fs := fs2 }, none)
        | (fs2, some q) =>
          ({ eprintln_v opts.verbose 1 (.infoRemovingFileToCreateDir path) st with
             fs := fs2 }, some (.ioError q))
    else (st, some (.fileExistsWhereDirExpected path))
  | some .dir => (st, none)
  | none =>
    if opts.dry_run then ({ st with out := st.out ++ [.wouldMkdirP path] }, none)
    else
      match create_dir_all path st.fs with
      | (fs2, none) => ({ st with fs := fs2 }, none)
      | (fs2, some q) => ({ st with fs := fs2 }, some (.ioError q))

/-- Embedding of `touch_file` (maketree.rs:166-198).  First ensures the
parent directory; a directory at the target is a conflict (or is removed
under `force`); an existing regular file is left untouched; otherwise an
empty file is created (`OpenOptions::new().create(true).write(true)` does not
truncate). -/
def touch_file (path : FsPath) (opts : Options) (st : St) : St × Option FsError :=
  match ensure_dir path.dropLast opts st with
  | (st1, some e) => (st1, some e)
  | (st1, none) =>
    match lookupFs st1.fs path with
    | some .dir =>
      if opts.force then
        if opts.dry_run then
          ({ eprintln_v opts.verbose 1 (.infoRemovingDirToCreateFile path) st1 with
             out := ((eprintln_v opts.verbose 1 (.infoRemovingDirToCreateFile path)
               st1).out ++ [Msg.wouldRemoveDir path]) ++ [Msg.wouldTouch path] },
           none)
        else
          ({ eprintln_v opts.verbose 1 (.infoRemovingDirToCreateFile path) st1 with
             fs := (path, .file []) :: remove_dir_all path st1.fs }, none)
      else (st1, some (.dirExistsWhereFileExpected path))
    | some (.file _) => (st1, none)
    | none =>
      if opts.dry_run then ({ st1 with out := st1.out ++ [.wouldTouch path] }, none)
      else ({ st1 with fs := (path, .file []) :: st1.fs }, none)

/-- Rust `name.trim_end_matches('/')`: strip every trailing slash. -/
def trimEndSlashes (s : Str) : Str :=
  (s.reverse.dropWhile (fun c => decide (c = '/'))).reverse

/-- Stack maintenance at the top of the per-entry loop (maketree.rs:223-227):
`stack.resize(depth, String::new())` when the depth is at least the stack
length (padding with empty names), `stack.truncate(depth)` otherwise.  The
resulting length is always exactly `depth`. -/
def stackMaintain (stack : List Str) (depth : Nat) : List Str :=
  if stack.length ≤ depth then stack ++ List.replicate (depth - stack.length) []
  else stack.take depth

/-- Path composition (maketree.rs:230-236): start from `"."`, push every
non-empty stack component, then the slash-stripped name. -/
def composePath (stack : List Str) (name : Str) : FsPath :=
  (stack.filter (fun comp => !comp.isEmpty)) ++ [name]

/-- Recording a directory entry into the stack after `ensure_dir` succeeds
(maketree.rs:242-254).  After `stackMaintain` the stack length equals the
entry depth, so the first branch (push) is the live one; the remaining
branches embed the Rust code verbatim. -/
def stackRecord (stack : List Str) (depth : Nat) (name : Str) : List Str :=
  if depth = stack.length then stack ++ [name]
  else if depth < stack.length then
    if depth = 0 then
      if stack = [] then stack ++ [name] else stack.set 0 name
    else stack.set depth name
  else stack

/-- The body of the per-entry loop of `main` (maketree.rs:221-262): maintain
the stack, compose the path, then `ensure_dir` (recording the directory into
the stack) or `touch_file`.  Returns the new stack, the new world, and the
error if the entry failed. -/
def buildStep (opts : Options) (ent : Entry) (stack : List Str) (st : St) :
    List Str × St × Option FsError :=
  let stack1 := stackMaintain stack ent.depth
  let name := trimEndSlashes ent.name
  let path := composePath stack1 name
  if ent.is_dir then
    let st1 := eprintln_v opts.verbose 2 (.debugMkdir path) st
    match ensure_dir path opts st1 with
    | (st2, none) => (stackRecord stack1 ent.depth name, st2, none)
    | (st2, some e) => (stack1, st2, some e)
  else
    let st1 := eprintln_v opts.verbose 2 (.debugTouch path) st
    match touch_file path opts st1 with
    | (st2, r) => (stack1, st2, r)

/-- The entry loop of `main`: process entries in order, stopping at the first
error (`?` propagation). -/
def runBuild (opts : Options) : List Entry → List Str → St → St × Option FsError
  | [], _, st => (st, none)
  | e :: rest, stack, st =>
    match buildStep opts e stack st with
    | (stack1, st1, none) => runBuild opts rest stack1 st1
    | (_, st1, some err) => (st1, some err)

/-- The whole core of `main` after the input is read (maketree.rs:216-264):
split into lines, collect entries (a parser panic aborts the program), then
materialize with an initially empty stack. -/
def maketree (lines : List Str) (opts : Options) (st : St) :
    PanicOr (St × Option FsError) :=
  match collect_entries lines with
  | .panic => .panic
  | .ok entries => .ok (runBuild opts entries [] st)

/-!
Theorems about the embedded program.
-/

/-- C1: on the Notation B input `["app/", "  src/", "    main.txt",
"  Cargo.toml"]` the builder materializes exactly `app/` (directory),
`app/src/` (directory), `app/src/main.txt` (file) and `app/Cargo.toml`
(file): the depth-1 entry `Cargo.toml` truncates the path stack back to
length 1, so it lands as a sibling of `src`, not a child. -/
theorem depth_reconstruction_notation_b :
    maketree ["app/".toList, "  src/".toList, "    main.txt".toList,
        "  Cargo.toml".toList] ⟨false, false, 0⟩ ⟨[], [], []⟩ =
      .ok (⟨[(["app".toList, "Cargo.toml".toList], .file []),
             (["app".toList, "src".toList, "main.txt".toList], .file []),
             (["app".toList, "src".toList], .dir),
             (["app".toList], .dir)], [], []⟩, none) := by
  rfl

/-- C3 (evaluation at the failing input): on the line `"│   ├── x"` the
tree-style classifier returns depth 0 and name `"─ x"`, not depth 1 and name
`"x"` as the claim states: the code compares 4-BYTE slices against the 6-byte
string `"│   "` (they can never be equal), and takes the name from byte
`conn_pos + 3`, only 3 bytes into the 7-byte connector `"── "`. -/
theorem tree_parser_eval_bar_prefixed_line :
    parse_tree_style_depth ("│   ├── x".toList) = .ok (some (0, "─ x".toList)) := by
  rfl

/-- C9 (evaluation at the failing input): the classifier is NOT total — on
the line `"   ├── x"` (three spaces before the connector) the byte slice
`&prefix[0..4]` ends inside the 3-byte character `├`, which is a panic in
Rust. -/
theorem classifier_panics_on_three_space_connector :
    classifyLine ("   ├── x".toList) = .panic := by
  rfl

/-- C4: with `force = false`, `ensure_dir` on a path occupied by a regular
file returns the Conflict error naming that path and leaves the whole world
(filesystem and both output streams) untouched — the file is neither removed
nor replaced. -/
theorem conflict_without_force (p : FsPath) (c : List Char) (opts : Options)
    (st : St) (hf : opts.force = false) (h : lookupFs st.fs p = some (.file c)) :
    ensure_dir p opts st = (st, some (.fileExistsWhereDirExpected p)) := by
  simp [ensure_dir, h, hf]

/-- Witness for C4 at a concrete world: a file at `a`. -/
theorem conflict_without_force_witness :
    ensure_dir [['a']] ⟨false, false, 0⟩ ⟨[([['a']], .file [])], [], []⟩ =
      (⟨[([['a']], .file [])], [], []⟩, some (.fileExistsWhereDirExpected [['a']])) :=
  conflict_without_force [['a']] [] ⟨false, false, 0⟩ _ rfl (by decide)

/-- C7 counterexample: with a regular file at `a`, `force = true` and
`dry_run = true`, `ensure_dir` does NOT report both the intended removal and
the intended creation on stdout with the filesystem unchanged — only the
removal message `"Would remove file"` is printed; no creation message
(`"Would mkdir -p"`) is ever emitted on this branch. -/
theorem force_dry_run_creation_report_counterexample :
    ¬ (Msg.wouldRemoveFile [['a']] ∈
          (ensure_dir [['a']] ⟨true, true, 0⟩ ⟨[([['a']], .file [])], [], []⟩).1.out ∧
       Msg.wouldMkdirP [['a']] ∈
          (ensure_dir [['a']] ⟨true, true, 0⟩ ⟨[([['a']], .file [])], [], []⟩).1.out ∧
       (ensure_dir [['a']] ⟨true, true, 0⟩ ⟨[([['a']], .file [])], [], []⟩).1.fs =
          [([['a']], .file [])]) := by
  decide

/-- C7 as amended: with a regular file at the path, `force = true` and
`dry_run = true`, `ensure_dir` reports the intended removal (and only it) on
the normal-output stream, emits the level-1 info line on the diagnostic
stream when verbosity allows, succeeds, and leaves the filesystem
unchanged.  No creation message is emitted. -/
theorem force_dry_run_reports_removal_only (p : FsPath) (c : List Char)
    (opts : Options) (st : St) (hf : opts.force = true) (hd : opts.dry_run = true)
    (h : lookupFs st.fs p = some (.file c)) :
    ensure_dir p opts st =
      ({ st with out := st.out ++ [Msg.wouldRemoveFile p],
                 errOut := if 1 ≤ opts.verbose then
                     st.errOut ++ [Msg.infoRemovingFileToCreateDir p]
                   else st.errOut }, none) := by
  simp only [ensure_dir, h, hf, hd, eprintln_v, if_true]
  split <;> rfl

/-- Witness for C7's amended theorem at a concrete world (verbosity 1, so
the info line is also emitted). -/
theorem force_dry_run_reports_removal_only_witness :
    ensure_dir [['a']] ⟨true, true, 1⟩ ⟨[([['a']], .file ['x'])], [], []⟩ =
      (⟨[([['a']], .file ['x'])], [Msg.wouldRemoveFile [['a']]],
        [Msg.infoRemovingFileToCreateDir [['a']]]⟩, none) := by
  have h := force_dry_run_reports_removal_only [['a']] ['x'] ⟨true, true, 1⟩
    ⟨[([['a']], .file ['x'])], [], []⟩ rfl rfl (by decide)
  simpa using h

/-- C8: when an entry's depth exceeds the current stack length (a depth jump
of more than one past the previous entry), the stack is padded with empty
placeholder slots up to that depth, and path composition skips the empty
slots, so the composed path puts the entry directly under its nearest named
ancestor (the non-empty stack entries) instead of rejecting the input. -/
theorem depth_gap_padding_flattens (stack : List Str) (d : Nat) (name : Str)
    (h : stack.length < d) :
    stackMaintain stack d = stack ++ List.replicate (d - stack.length) [] ∧
    composePath (stackMaintain stack d) name =
      stack.filter (fun comp => !comp.isEmpty) ++ [name] := by
  have h1 : stackMaintain stack d = stack ++ List.replicate (d - stack.length) [] := by
    unfold stackMaintain
    rw [if_pos (Nat.le_of_lt h)]
  refine ⟨h1, ?_⟩
  unfold composePath
  rw [h1, List.filter_append]
  have h2 : ∀ n, List.filter (fun comp => !comp.isEmpty)
      (List.replicate n ([] : Str)) = [] := by
    intro n
    induction n with
    | zero => rfl
    | succ k ih => simp [List.replicate_succ, List.filter_cons, ih]
  rw [h2]
  simp

/-- Witness for C8: a stack holding `a` and an entry at depth 3 — two empty
slots are padded and the path flattens to `a/b`. -/
theorem depth_gap_padding_flattens_witness :
    stackMaintain [['a']] 3 = [['a'], [], []] ∧
    composePath (stackMaintain [['a']] 3) ['b'] = [['a'], ['b']] := by
  have h := depth_gap_padding_flattens [['a']] 3 ['b'] (by decide)
  simpa using h

theorem eprintln_v_fs (v level : Nat) (m : Msg) (st : St) :
    (eprintln_v v level m st).fs = st.fs := by
  unfold eprintln_v
  split <;> rfl

theorem eprintln_v_out (v level : Nat) (m : Msg) (st : St) :
    (eprintln_v v level m st).out = st.out := by
  unfold eprintln_v
  split <;> rfl

theorem ensure_dir_dry_fs (path : FsPath) (opts : Options) (st : St)
    (hd : opts.dry_run = true) : ((ensure_dir path opts st).1).fs = st.fs := by
  unfold ensure_dir
  cases hq : lookupFs st.fs path with
  | none => simp [hd]
  | some k =>
    cases k with
    | dir => rfl
    | file c =>
      by_cases hf : opts.force
      · simp only [hf, hd, if_true]
        rw [eprintln_v_fs]
      · simp [hf]

theorem touch_file_dry_fs (path : FsPath) (opts : Options) (st : St)
    (hd : opts.dry_run = true) : ((touch_file path opts st).1).fs = st.fs := by
  have h1 : ((ensure_dir path.dropLast opts st).1).fs = st.fs :=
    ensure_dir_dry_fs _ _ _ hd
  unfold touch_file
  generalize hq : ensure_dir path.dropLast opts st = q at h1 ⊢
  obtain ⟨st1, r⟩ := q
  have h2 : st1.fs = st.fs := h1
  cases r with
  | some e => exact h2
  | none =>
    dsimp only
    split
    · by_cases hf : opts.force
      · simp [hf, hd, eprintln_v_fs, h2]
      · simp [hf, h2]
    · exact h2
    · simp [hd, h2]

/-- C5: with `dry_run = true` a full run of the builder performs no
filesystem mutation at all — for every entry list, stack and starting world,
whatever the force flag and whatever conflicts arise, the filesystem after
the run equals the filesystem before it (nothing is created and nothing is
removed). -/
theorem dry_run_no_mutation (opts : Options) (hd : opts.dry_run = true) :
    ∀ (entries : List Entry) (stack : List Str) (st : St),
      ((runBuild opts entries stack st).1).fs = st.fs := by
  intro entries
  induction entries with
  | nil => intro stack st; rfl
  | cons e rest ih =>
    intro stack st
    unfold runBuild buildStep
    by_cases hdir : e.is_dir
    · simp only [hdir, if_true]
      have hfs : ((ensure_dir (composePath (stackMaintain stack e.depth)
          (trimEndSlashes e.name)) opts (eprintln_v opts.verbose 2
          (.debugMkdir (composePath (stackMaintain stack e.depth)
          (trimEndSlashes e.name))) st)).1).fs =
          st.fs := by
        rw [ensure_dir_dry_fs _ _ _ hd, eprintln_v_fs]
      cases hp : ensure_dir (composePath (stackMaintain stack e.depth)
          (trimEndSlashes e.name)) opts (eprintln_v opts.verbose 2
          (.debugMkdir (composePath (stackMaintain stack e.depth)
          (trimEndSlashes e.name))) st) with
      | mk st1 r =>
        rw [hp] at hfs
        cases r with
        | none => simpa [ih] using hfs
        | some err => simpa using hfs
    · simp only [hdir, if_false]
      have hfs : ((touch_file (composePath (stackMaintain stack e.depth)
          (trimEndSlashes e.name)) opts (eprintln_v opts.verbose 2
          (.debugTouch (composePath (stackMaintain stack e.depth)
          (trimEndSlashes e.name))) st)).1).fs =
          st.fs := by
        rw [touch_file_dry_fs _ _ _ hd, eprintln_v_fs]
      cases hp : touch_file (composePath (stackMaintain stack e.depth)
          (trimEndSlashes e.name)) opts (eprintln_v opts.verbose 2
          (.debugTouch (composePath (stackMaintain stack e.depth)
          (trimEndSlashes e.name))) st) with
      | mk st1 r =>
        rw [hp] at hfs
        cases r with
        | none => simpa [ih] using hfs
        | some err => simpa using hfs

/-- Witness for C5: a dry run (with `force = true`) over a directory entry
and a file entry starting from the empty filesystem leaves it empty. -/
theorem dry_run_no_mutation_witness :
    ((runBuild ⟨true, true, 0⟩ [⟨0, ['a'], true⟩, ⟨1, ['b'], false⟩] []
        ⟨[], [], []⟩).1).fs = [] :=
  dry_run_no_mutation ⟨true, true, 0⟩ rfl [⟨0, ['a'], true⟩, ⟨1, ['b'], false⟩] []
    ⟨[], [], []⟩

theorem mem_dropWhile_of_not {α : Type} (p : α → Bool) (a : α) :
    ∀ l : List α, a ∈ l → p a = false → a ∈ l.dropWhile p := by
  intro l
  induction l with
  | nil => intro h _; exact absurd h (List.not_mem_nil a)
  | cons x xs ih =>
    intro hm hp
    by_cases hx : p x = true
    · rw [List.dropWhile_cons_of_pos hx]
      rcases List.mem_cons.mp hm with h | h
      · rw [h] at hp; rw [hp] at hx; exact Bool.noConfusion hx
      · exact ih h hp
    · rw [List.dropWhile_cons_of_neg hx]
      exact hm

theorem mem_trim (c : Char) (s : Str) (hc : c ∈ s)
    (hw : rustIsWhitespace c = false) : c ∈ trim s := by
  unfold trim dropTrailingWs
  have h1 : c ∈ s.dropWhile rustIsWhitespace := mem_dropWhile_of_not _ _ _ hc hw
  have h2 : c ∈ (s.dropWhile rustIsWhitespace).reverse := List.mem_reverse.mpr h1
  exact List.mem_reverse.mpr (mem_dropWhile_of_not _ _ _ h2 hw)

theorem isAsciiDigit_not_ws (c : Char) (h : isAsciiDigit c = true) :
    rustIsWhitespace c = false := by
  simp only [isAsciiDigit, decide_eq_true_eq] at h
  simp only [rustIsWhitespace, decide_eq_false_iff_not]
  omega

theorem any_digit_trim (s : Str) (h : s.any isAsciiDigit = true) :
    (trim s).any isAsciiDigit = true := by
  rw [List.any_eq_true] at h ⊢
  obtain ⟨c, hc, hd⟩ := h
  exact ⟨c, mem_trim c s hc (isAsciiDigit_not_ws c hd), hd⟩

theorem isPrefixC_append_ws (pat : Str) (hpat : ∀ c ∈ pat, rustIsWhitespace c = false) :
    ∀ (l w : Str), (∀ c ∈ w, rustIsWhitespace c = true) →
      isPrefixC pat (l ++ w) = isPrefixC pat l := by
  induction pat with
  | nil => intro l w _; cases l <;> rfl
  | cons a as ih =>
    intro l w hw
    cases l with
    | nil =>
      cases w with
      | nil => rfl
      | cons b bs =>
        have ha : rustIsWhitespace a = false := hpat a (List.mem_cons_self a as)
        have hb : rustIsWhitespace b = true := hw b (List.mem_cons_self b bs)
        have hab : a ≠ b := by
          intro h; rw [h, hb] at ha; exact Bool.noConfusion ha
        simp [isPrefixC, hab]
    | cons x xs =>
      simp only [List.cons_append, isPrefixC]
      by_cases hax : a = x
      · simp only [hax, if_true]
        exact ih (fun c hc => hpat c (List.mem_cons_of_mem a hc)) xs w hw
      · simp [hax]

theorem containsSub_allws_false (pat : Str) (hne : pat ≠ [])
    (hpat : ∀ c ∈ pat, rustIsWhitespace c = false) :
    ∀ w : Str, (∀ c ∈ w, rustIsWhitespace c = true) → containsSub w pat = false := by
  intro w
  induction w with
  | nil =>
    intro _
    cases pat with
    | nil => exact absurd rfl hne
    | cons a as => rfl
  | cons b bs ih =>
    intro hw
    cases pat with
    | nil => exact absurd rfl hne
    | cons a as =>
      have ha : rustIsWhitespace a = false := hpat a (List.mem_cons_self a as)
      have hb : rustIsWhitespace b = true := hw b (List.mem_cons_self b bs)
      have hab : a ≠ b := by
        intro h; rw [h, hb] at ha; exact Bool.noConfusion ha
      unfold containsSub
      simp only [isPrefixC, hab, if_false]
      exact ih (fun c hc => hw c (List.mem_cons_of_mem b hc))

theorem containsSub_append_ws (pat : Str) (hne : pat ≠ [])
    (hpat : ∀ c ∈ pat, rustIsWhitespace c = false) (w : Str)
    (hw : ∀ c ∈ w, rustIsWhitespace c = true) :
    ∀ l : Str, containsSub (l ++ w) pat = true → containsSub l pat = true := by
  intro l
  induction l with
  | nil =>
    intro h
    rw [List.nil_append] at h
    rw [containsSub_allws_false pat hne hpat w hw] at h
    exact Bool.noConfusion h
  | cons x xs ih =>
    intro h
    rw [List.cons_append] at h
    have h2 : (if isPrefixC pat ((x :: xs) ++ w) then true
        else containsSub (xs ++ w) pat) = true := h
    rw [isPrefixC_append_ws pat hpat (x :: xs) w hw] at h2
    show (if isPrefixC pat (x :: xs) then true else containsSub xs pat) = true
    by_cases hp : isPrefixC pat (x :: xs) = true
    · rw [if_pos hp]
    · rw [if_neg hp] at h2 ⊢
      exact ih h2

theorem containsSub_dropWhile_ws (pat : Str) (hne : pat ≠ [])
    (hpat : ∀ c ∈ pat, rustIsWhitespace c = false) :
    ∀ l : Str, containsSub l pat = true →
      containsSub (l.dropWhile rustIsWhitespace) pat = true := by
  intro l
  induction l with
  | nil => intro h; exact h
  | cons x xs ih =>
    intro h
    by_cases hx : rustIsWhitespace x = true
    · rw [List.dropWhile_cons_of_pos hx]
      apply ih
      unfold containsSub at h
      have hp : isPrefixC pat (x :: xs) = false := by
        cases pat with
        | nil => exact absurd rfl hne
        | cons a as =>
          have ha : rustIsWhitespace a = false := hpat a (List.mem_cons_self a as)
          have hab : a ≠ x := by
            intro hh; rw [hh, hx] at ha; exact Bool.noConfusion ha
          simp [isPrefixC, hab]
      simpa [hp] using h
    · rw [List.dropWhile_cons_of_neg hx]
      exact h

theorem containsSub_dropTrailing (pat : Str) (hne : pat ≠ [])
    (hpat : ∀ c ∈ pat, rustIsWhitespace c = false) (l : Str)
    (h : containsSub l pat = true) : containsSub (dropTrailingWs l) pat = true := by
  have hsplit : l = dropTrailingWs l ++ (l.reverse.takeWhile rustIsWhitespace).reverse := by
    unfold dropTrailingWs
    conv_lhs => rw [← l.reverse_reverse, ← List.takeWhile_append_dropWhile
      (p := rustIsWhitespace) (l := l.reverse)]
    rw [List.reverse_append]
  apply containsSub_append_ws pat hne hpat
    ((l.reverse.takeWhile rustIsWhitespace).reverse)
  · intro c hc
    exact List.mem_takeWhile_imp (List.mem_reverse.mp hc)
  · rw [← hsplit]
    exact h

theorem containsSub_trim (pat : Str) (hne : pat ≠ [])
    (hpat : ∀ c ∈ pat, rustIsWhitespace c = false) (l : Str)
    (h : containsSub l pat = true) : containsSub (trim l) pat = true := by
  unfold trim
  exact containsSub_dropTrailing pat hne hpat _
    (containsSub_dropWhile_ws pat hne hpat l h)

theorem is_stats_line_of (line : Str) (h1 : line.any isAsciiDigit = true)
    (h2 : containsSub line ("director".toList) = true)
    (h3 : containsSub line ("file".toList) = true) :
    is_stats_line line = true := by
  unfold is_stats_line
  rw [Bool.and_eq_true, Bool.and_eq_true]
  refine ⟨⟨any_digit_trim line h1, ?_⟩, ?_⟩
  · exact containsSub_trim _ (by decide) (by decide) line h2
  · exact containsSub_trim _ (by decide) (by decide) line h3

theorem classifyLine_stats (line : Str) (h : is_stats_line line = true) :
    classifyLine line = .ok none := by
  unfold classifyLine
  rw [if_pos (Or.inr (Or.inr h))]

theorem firstPass_skip (line : Str) (h : classifyLine line = .ok none) :
    ∀ xs ys : List Str, firstPass (xs ++ line :: ys) = firstPass (xs ++ ys) := by
  intro xs ys
  induction xs with
  | nil => simp only [List.nil_append, firstPass, h]
  | cons x xs ih =>
    have ih2 : firstPass (List.append xs (line :: ys)) =
        firstPass (List.append xs ys) := ih
    cases hcx : classifyLine x with
    | panic => simp only [List.cons_append, firstPass, hcx]
    | ok o =>
      cases o with
      | none => simp only [List.cons_append, firstPass, hcx, ih2]
      | some e => simp only [List.cons_append, firstPass, hcx, ih2]

/-- C10: the stats-line test runs before either notation parser, so every
line holding at least one ASCII digit together with the substrings
`"director"` and `"file"` contributes no entry — deleting it from the input
changes neither the collected entry list nor the whole materialization run —
even when the line is a well-formed connector-style entry such as
`"├── 2directories_filed.txt"`. -/
theorem stats_line_never_materializes (line : Str)
    (h1 : line.any isAsciiDigit = true)
    (h2 : containsSub line ("director".toList) = true)
    (h3 : containsSub line ("file".toList) = true) :
    ∀ (xs ys : List Str) (opts : Options) (st : St),
      collect_entries (xs ++ line :: ys) = collect_entries (xs ++ ys) ∧
      maketree (xs ++ line :: ys) opts st = maketree (xs ++ ys) opts st := by
  intro xs ys opts st
  have hc : classifyLine line = .ok none :=
    classifyLine_stats line (is_stats_line_of line h1 h2 h3)
  have hf := firstPass_skip line hc xs ys
  constructor
  · unfold collect_entries
    rw [hf]
  · unfold maketree collect_entries
    rw [hf]

/-- Witness for C10: the connector-style line
`"├── 2directories_filed.txt"` names a plausible file yet produces no entry
and no filesystem node. -/
theorem stats_line_never_materializes_witness :
    collect_entries ([] ++ "├── 2directories_filed.txt".toList :: ["x.txt".toList]) =
      collect_entries ([] ++ ["x.txt".toList]) ∧
    maketree ([] ++ "├── 2directories_filed.txt".toList :: ["x.txt".toList])
        ⟨false, false, 0⟩ ⟨[], [], []⟩ =
      maketree ([] ++ ["x.txt".toList]) ⟨false, false, 0⟩ ⟨[], [], []⟩ :=
  stats_line_never_materializes ("├── 2directories_filed.txt".toList)
    (by decide) (by decide) (by decide) [] ["x.txt".toList] ⟨false, false, 0⟩
    ⟨[], [], []⟩

theorem inferStep_eq (L : List Entry) (k : Nat) :
    inferStep L k =
      match L[k]? with
      | none => L
      | some e =>
        if e.is_dir then L
        else
          match L[k + 1]? with
          | none => L
          | some f =>
            if e.depth < f.depth then L.set k { e with is_dir := true } else L :=
  rfl

theorem inferFold_spec (l : List Entry) : ∀ n : Nat,
    ((List.range n).foldl inferStep l).length = l.length ∧
    ∀ i : Nat, ((List.range n).foldl inferStep l)[i]? =
      if i < n then
        (l[i]?).map (fun e =>
          if e.is_dir then e
          else
            match l[i + 1]? with
            | none => e
            | some f => if e.depth < f.depth then { e with is_dir := true } else e)
      else l[i]? := by
  intro n
  induction n with
  | zero => exact ⟨rfl, fun i => by simp⟩
  | succ k ih =>
    obtain ⟨ihlen, ihspec⟩ := ih
    rw [List.range_succ, List.foldl_append, List.foldl_cons, List.foldl_nil]
    have hLk : ((List.range k).foldl inferStep l)[k]? = l[k]? := by
      rw [ihspec k]; simp
    have hLk1 : ((List.range k).foldl inferStep l)[k + 1]? = l[k + 1]? := by
      rw [ihspec (k + 1), if_neg (by omega)]
    cases hk : l[k]? with
    | none =>
      have hstep : inferStep ((List.range k).foldl inferStep l) k =
          (List.range k).foldl inferStep l := by
        rw [inferStep_eq, hLk, hk]
      rw [hstep]
      refine ⟨ihlen, fun i => ?_⟩
      by_cases hik : i < k
      · rw [ihspec i, if_pos hik, if_pos (by omega)]
      · by_cases hik2 : i = k
        · subst hik2
          rw [hLk, hk, if_pos (by omega)]
          rfl
        · rw [ihspec i, if_neg hik, if_neg (by omega)]
    | some e =>
      have hklt : k < l.length := (List.getElem?_eq_some.mp hk).1
      have hkltL : k < ((List.range k).foldl inferStep l).length := by
        rw [ihlen]; exact hklt
      by_cases hdir : e.is_dir
      · have hstep : inferStep ((List.range k).foldl inferStep l) k =
            (List.range k).foldl inferStep l := by
          rw [inferStep_eq, hLk, hk]
          simp [hdir]
        rw [hstep]
        refine ⟨ihlen, fun i => ?_⟩
        by_cases hik : i < k
        · rw [ihspec i, if_pos hik, if_pos (by omega)]
        · by_cases hik2 : i = k
          · subst hik2
            rw [hLk, hk, if_pos (by omega)]
            simp [hdir]
          · rw [ihspec i, if_neg hik, if_neg (by omega)]
      · cases hk1 : l[k + 1]? with
        | none =>
          have hstep : inferStep ((List.range k).foldl inferStep l) k =
              (List.range k).foldl inferStep l := by
            rw [inferStep_eq, hLk, hk]
            simp [hdir, hLk1, hk1]
          rw [hstep]
          refine ⟨ihlen, fun i => ?_⟩
          by_cases hik : i < k
          · rw [ihspec i, if_pos hik, if_pos (by omega)]
          · by_cases hik2 : i = k
            · subst hik2
              rw [hLk, hk, if_pos (by omega)]
              simp [hdir, hk1]
            · rw [ihspec i, if_neg hik, if_neg (by omega)]
        | some f =>
          by_cases hdeep : e.depth < f.depth
          · have hstep : inferStep ((List.range k).foldl inferStep l) k =
                ((List.range k).foldl inferStep l).set k
                  { e with is_dir := true } := by
              rw [inferStep_eq, hLk, hk]
              simp [hdir, hLk1, hk1, hdeep]
            rw [hstep]
            refine ⟨by rw [List.length_set, ihlen], fun i => ?_⟩
            by_cases hik : i < k
            · rw [List.getElem?_set_ne (by omega), ihspec i, if_pos hik,
                if_pos (by omega)]
            · by_cases hik2 : i = k
              · subst hik2
                rw [List.getElem?_set_eq_of_lt _ hkltL, if_pos (by omega), hk]
                simp [hdir, hdeep, hk1]
              · rw [List.getElem?_set_ne (by omega), ihspec i, if_neg hik,
                  if_neg (by omega)]
          · have hstep : inferStep ((List.range k).foldl inferStep l) k =
                (List.range k).foldl inferStep l := by
              rw [inferStep_eq, hLk, hk]
              simp [hdir, hLk1, hk1, hdeep]
            rw [hstep]
            refine ⟨ihlen, fun i => ?_⟩
            by_cases hik : i < k
            · rw [ihspec i, if_pos hik, if_pos (by omega)]
            · by_cases hik2 : i = k
              · subst hik2
                rw [hLk, hk, if_pos (by omega)]
                simp [hdir, hdeep, hk1]
              · rw [ihspec i, if_neg hik, if_neg (by omega)]

/-- C2: the inference pass preserves the length of the entry list and
rewrites every entry's `is_dir` flag to
`old is_dir OR (the next entry exists and is strictly deeper)`: entries are
upgraded from file to directory exactly when the immediately following entry
is strictly deeper, a directory is never downgraded (the old flag stays a
disjunct), the last entry is never upgraded (no following entry), and depth
and name are unchanged (only the `is_dir` field is rewritten). -/
theorem directory_inference_spec (l : List Entry) (i : Nat) (e : Entry)
    (he : l[i]? = some e) :
    (infer_dirs l).length = l.length ∧
    (infer_dirs l)[i]? = some { e with is_dir := e.is_dir ||
      (match l[i + 1]? with
       | none => false
       | some f => decide (e.depth < f.depth)) } := by
  obtain ⟨hlen, hspec⟩ := inferFold_spec l l.length
  have hi : i < l.length := (List.getElem?_eq_some.mp he).1
  refine ⟨hlen, ?_⟩
  rw [show infer_dirs l = (List.range l.length).foldl inferStep l from rfl,
    hspec i, if_pos hi, he]
  obtain ⟨d, nm, b⟩ := e
  cases b with
  | true =>
    cases hk1 : l[i + 1]? with
    | none => simp
    | some f => by_cases hdeep : d < f.depth <;> simp [hdeep]
  | false =>
    cases hk1 : l[i + 1]? with
    | none => simp
    | some f => by_cases hdeep : d < f.depth <;> simp [hdeep]

/-- Witness for C2 at a concrete list: `a` (depth 0, file) followed by `b`
(depth 1, file) — `a` is upgraded to a directory. -/
theorem directory_inference_spec_witness :
    (infer_dirs [⟨0, ['a'], false⟩, ⟨1, ['b'], false⟩]).length = 2 ∧
    (infer_dirs [⟨0, ['a'], false⟩, ⟨1, ['b'], false⟩])[0]? =
      some { depth := 0, name := ['a'], is_dir := false ||
        (match ([⟨0, ['a'], false⟩, ⟨1, ['b'], false⟩] : List Entry)[0 + 1]? with
         | none => false
         | some f => decide (0 < f.depth)) } :=
  directory_inference_spec [⟨0, ['a'], false⟩, ⟨1, ['b'], false⟩] 0
    ⟨0, ['a'], false⟩ (by decide)

theorem lookupFs_cons (q : FsPath) (k : NodeKind) (fs : Fs) (p : FsPath) :
    lookupFs ((q, k) :: fs) p =
      if p = [] then some .dir else if q = p then some k else lookupFs fs p := by
  unfold lookupFs
  by_cases hp : p = []
  · simp [hp]
  · simp only [hp, if_false, List.find?]
    by_cases hq : q = p
    · simp [hq]
    · simp [hq, hp]

theorem lookupFs_nil_path (fs : Fs) : lookupFs fs [] = some .dir := by
  unfold lookupFs
  simp

theorem cdag_cons (fs : Fs) (r : FsPath) (rest : List FsPath) :
    create_dir_all_go fs (r :: rest) =
      match lookupFs fs r with
      | some .dir => create_dir_all_go fs rest
      | some (.file _) => (fs, some r)
      | none => create_dir_all_go ((r, .dir) :: fs) rest :=
  rfl

theorem cdag_mono : ∀ (ps : List FsPath) (fs : Fs) (q : FsPath) (k : NodeKind),
    lookupFs fs q = some k → lookupFs (create_dir_all_go fs ps).1 q = some k := by
  intro ps
  induction ps with
  | nil => intro fs q k h; exact h
  | cons r rest ih =>
    intro fs q k h
    rw [cdag_cons]
    cases hr : lookupFs fs r with
    | some kind =>
      cases kind with
      | dir => exact ih fs q k h
      | file c => exact h
    | none =>
      apply ih
      rw [lookupFs_cons]
      by_cases hq0 : q = []
      · subst hq0
        rw [lookupFs_nil_path] at h
        rw [if_pos rfl]
        exact h
      · rw [if_neg hq0]
        by_cases hrq : r = q
        · subst hrq
          rw [hr] at h
          exact absurd h (by simp)
        · rw [if_neg hrq]
          exact h

theorem cdag_post : ∀ (ps : List FsPath) (fs : Fs),
    (create_dir_all_go fs ps).2 = none →
    ∀ q ∈ ps, lookupFs (create_dir_all_go fs ps).1 q = some .dir := by
  intro ps
  induction ps with
  | nil => intro fs _ q hq; exact absurd hq (List.not_mem_nil q)
  | cons r rest ih =>
    intro fs hsucc q hq
    rw [cdag_cons] at hsucc ⊢
    cases hr : lookupFs fs r with
    | some kind =>
      cases kind with
      | dir =>
        rw [hr] at hsucc
        rcases List.mem_cons.mp hq with hq1 | hq1
        · subst hq1
          exact cdag_mono rest fs q .dir hr
        · exact ih fs hsucc q hq1
      | file c =>
        rw [hr] at hsucc
        exact absurd hsucc (by simp)
    | none =>
      rw [hr] at hsucc
      rcases List.mem_cons.mp hq with hq1 | hq1
      · subst hq1
        apply cdag_mono rest ((q, .dir) :: fs) q .dir
        rw [lookupFs_cons]
        by_cases hq0 : q = []
        · simp [hq0]
        · simp [hq0]
      · exact ih ((r, .dir) :: fs) hsucc q hq1

theorem self_mem_inits {α : Type} (l : List α) : l ∈ l.inits := by
  induction l with
  | nil => simp
  | cons a t ih =>
    rw [List.inits_cons]
    simp only [List.mem_cons, List.mem_map]
    exact Or.inr ⟨t, ih, rfl⟩

theorem ensure_dir_eq (path : FsPath) (opts : Options) (st : St) :
    ensure_dir path opts st =
      match lookupFs st.fs path with
      | some (.file _) =>
        if opts.force then
          if opts.dry_run then
            ({ eprintln_v opts.verbose 1 (.infoRemovingFileToCreateDir path) st with
               out := (eprintln_v opts.verbose 1 (.infoRemovingFileToCreateDir path)
                 st).out ++ [.wouldRemoveFile path] }, none)
          else
            match create_dir_all path (remove_file path st.fs) with
            | (fs2, none) =>
              ({ eprintln_v opts.verbose 1 (.infoRemovingFileToCreateDir path) st with
                 fs := fs2 }, none)
            | (fs2, some q) =>
              ({ eprintln_v opts.verbose 1 (.infoRemovingFileToCreateDir path) st with
                 fs := fs2 }, some (.ioError q))
        else (st, some (.fileExistsWhereDirExpected path))
      | some .dir => (st, none)
      | none =>
        if opts.dry_run then ({ st with out := st.out ++ [.wouldMkdirP path] }, none)
        else
          match create_dir_all path st.fs with
          | (fs2, none) => ({ st with fs := fs2 }, none)
          | (fs2, some q) => ({ st with fs := fs2 }, some (.ioError q)) :=
  rfl

theorem ensure_dir_noop (path : FsPath) (opts : Options) (st : St)
    (h : lookupFs st.fs path = some .dir) : ensure_dir path opts st = (st, none) := by
  rw [ensure_dir_eq, h]

theorem ensure_dir_mono (path : FsPath) (opts : Options) (st : St) (q : FsPath)
    (k : NodeKind) (hf : opts.force = false) (h : lookupFs st.fs q = some k) :
    lookupFs ((ensure_dir path opts st).1).fs q = some k := by
  rw [ensure_dir_eq]
  cases hp : lookupFs st.fs path with
  | some kind =>
    cases kind with
    | file c => rw [hf]; exact h
    | dir => exact h
  | none =>
    by_cases hd : opts.dry_run = true
    · simp only [hd, if_true]
      exact h
    · simp only [hd, if_false]
      have hm := cdag_mono path.inits st.fs q k h
      cases hc : create_dir_all path st.fs with
      | mk fs2 r =>
        rw [show create_dir_all path st.fs = create_dir_all_go st.fs path.inits
          from rfl] at hc
        rw [hc] at hm
        cases r with
        | none => exact hm
        | some e => exact hm

theorem ensure_dir_post (path : FsPath) (opts : Options) (st : St)
    (hd : opts.dry_run = false) (hsucc : (ensure_dir path opts st).2 = none) :
    lookupFs ((ensure_dir path opts st).1).fs path = some .dir := by
  rw [ensure_dir_eq] at hsucc ⊢
  cases hp : lookupFs st.fs path with
  | some kind =>
    cases kind with
    | dir => exact hp
    | file c =>
      rw [hp] at hsucc
      by_cases hforce : opts.force = true
      · have hpost := cdag_post path.inits (remove_file path st.fs)
        cases hc : create_dir_all path (remove_file path st.fs) with
        | mk fs2 r =>
          rw [hc] at hsucc
          rw [show create_dir_all path (remove_file path st.fs) =
            create_dir_all_go (remove_file path st.fs) path.inits from rfl] at hc
          rw [hc] at hpost
          cases r with
          | none =>
            have hdir := hpost rfl path (self_mem_inits path)
            simpa [hforce, hd] using hdir
          | some e => simp [hforce, hd] at hsucc
      · simp [hforce] at hsucc
  | none =>
    rw [hp] at hsucc
    have hpost := cdag_post path.inits st.fs
    cases hc : create_dir_all path st.fs with
    | mk fs2 r =>
      rw [hc] at hsucc
      rw [show create_dir_all path st.fs = create_dir_all_go st.fs path.inits
        from rfl] at hc
      rw [hc] at hpost
      cases r with
      | none =>
        have hdir := hpost rfl path (self_mem_inits path)
        simpa [hd] using hdir
      | some e => simp [hd] at hsucc

theorem ensure_dir_out (path : FsPath) (opts : Options) (st : St)
    (hd : opts.dry_run = false) : ((ensure_dir path opts st).1).out = st.out := by
  rw [ensure_dir_eq]
  cases hp : lookupFs st.fs path with
  | some kind =>
    cases kind with
    | dir => rfl
    | file c =>
      by_cases hforce : opts.force = true
      · cases hc : create_dir_all path (remove_file path st.fs) with
        | mk fs2 r =>
          cases r with
          | none => simp [hforce, hd, eprintln_v_out]
          | some e => simp [hforce, hd, eprintln_v_out]
      · simp [hforce]
  | none =>
    cases hc : create_dir_all path st.fs with
    | mk fs2 r =>
      cases r with
      | none => simp [hd]
      | some e => simp [hd]

theorem touch_file_eq (path : FsPath) (opts : Options) (st : St) :
    touch_file path opts st =
      match ensure_dir path.dropLast opts st with
      | (st1, some e) => (st1, some e)
      | (st1, none) =>
        match lookupFs st1.fs path with
        | some .dir =>
          if opts.force then
            if opts.dry_run then
              ({ eprintln_v opts.verbose 1 (.infoRemovingDirToCreateFile path) st1 with
                 out := ((eprintln_v opts.verbose 1 (.infoRemovingDirToCreateFile path)
                   st1).out ++ [Msg.wouldRemoveDir path]) ++ [Msg.wouldTouch path] },
               none)
            else
              ({ eprintln_v opts.verbose 1 (.infoRemovingDirToCreateFile path) st1 with
                 fs := (path, .file []) :: remove_dir_all path st1.fs }, none)
          else (st1, some (.dirExistsWhereFileExpected path))
        | some (.file _) => (st1, none)
        | none =>
          if opts.dry_run then ({ st1 with out := st1.out ++ [.wouldTouch path] }, none)
          else ({ st1 with fs := (path, .file []) :: st1.fs }, none) :=
  rfl

theorem touch_file_noop (path : FsPath) (opts : Options) (st : St) (c : List Char)
    (hfile : lookupFs st.fs path = some (.file c))
    (hparent : lookupFs st.fs path.dropLast = some .dir) :
    touch_file path opts st = (st, none) := by
  rw [touch_file_eq, ensure_dir_noop path.dropLast opts st hparent]
  dsimp only
  rw [hfile]

theorem touch_file_mono (path : FsPath) (opts : Options) (st : St) (q : FsPath)
    (k : NodeKind) (hf : opts.force = false) (h : lookupFs st.fs q = some k) :
    lookupFs ((touch_file path opts st).1).fs q = some k := by
  rw [touch_file_eq]
  have hm := ensure_dir_mono path.dropLast opts st q k hf h
  cases he : ensure_dir path.dropLast opts st with
  | mk st1 r =>
    rw [he] at hm
    cases r with
    | some e => exact hm
    | none =>
      dsimp only
      cases hl : lookupFs st1.fs path with
      | some kind =>
        cases kind with
        | dir => simp [hf]; exact hm
        | file c => exact hm
      | none =>
        by_cases hd : opts.dry_run = true
        · simp [hd]; exact hm
        · simp only [hd, if_false, Bool.false_eq_true]
          rw [lookupFs_cons]
          by_cases hq0 : q = []
          · subst hq0
            rw [lookupFs_nil_path] at hm
            rw [if_pos rfl]
            exact hm
          · rw [if_neg hq0]
            by_cases hpq : path = q
            · subst hpq
              rw [hl] at hm
              exact absurd hm (by simp)
            · rw [if_neg hpq]
              exact hm

theorem touch_file_post (path : FsPath) (opts : Options) (st : St)
    (hf : opts.force = false) (hd : opts.dry_run = false)
    (hsucc : (touch_file path opts st).2 = none) :
    lookupFs ((touch_file path opts st).1).fs path.dropLast = some .dir ∧
    ∃ c, lookupFs ((touch_file path opts st).1).fs path = some (.file c) := by
  rw [touch_file_eq] at hsucc ⊢
  cases he : ensure_dir path.dropLast opts st with
  | mk st1 r =>
    rw [he] at hsucc
    cases r with
    | some e => simp at hsucc
    | none =>
      have hparent : lookupFs st1.fs path.dropLast = some .dir := by
        have hh := ensure_dir_post path.dropLast opts st hd (by rw [he])
        rw [he] at hh
        exact hh
      dsimp only at hsucc ⊢
      cases hl : lookupFs st1.fs path with
      | some kind =>
        cases kind with
        | dir =>
          rw [hl] at hsucc
          simp [hf] at hsucc
        | file c => exact ⟨hparent, c, hl⟩
      | none =>
        have hd2 : ¬ opts.dry_run = true := by rw [hd]; exact Bool.false_ne_true
        dsimp only
        rw [if_neg hd2]
        dsimp only
        have hpne : path ≠ [] := by
          intro hp0
          rw [hp0, lookupFs_nil_path] at hl
          exact Option.noConfusion hl
        have hdne : path.dropLast ≠ path := by
          intro hdp
          have := congrArg List.length hdp
          rw [List.length_dropLast] at this
          cases hpath : path with
          | nil => exact hpne hpath
          | cons a t =>
            rw [hpath] at this
            simp at this
        constructor
        · rw [lookupFs_cons]
          by_cases hq0 : path.dropLast = []
          · simp [hq0]
          · rw [if_neg hq0, if_neg (fun hh => hdne hh.symm)]
            exact hparent
        · refine ⟨[], ?_⟩
          rw [lookupFs_cons, if_neg hpne, if_pos rfl]

theorem touch_file_out (path : FsPath) (opts : Options) (st : St)
    (hd : opts.dry_run = false) : ((touch_file path opts st).1).out = st.out := by
  rw [touch_file_eq]
  have ho := ensure_dir_out path.dropLast opts st hd
  cases he : ensure_dir path.dropLast opts st with
  | mk st1 r =>
    rw [he] at ho
    cases r with
    | some e => exact ho
    | none =>
      dsimp only
      cases hl : lookupFs st1.fs path with
      | some kind =>
        cases kind with
        | dir =>
          by_cases hforce : opts.force = true
          · simp [hforce, hd, eprintln_v_out]
            exact ho
          · simp [hforce]
            exact ho
        | file c => exact ho
      | none =>
        simp [hd]
        exact ho

theorem runBuild_mono (opts : Options) (hf : opts.force = false) :
    ∀ (entries : List Entry) (stack : List Str) (st : St) (q : FsPath) (k : NodeKind),
      lookupFs st.fs q = some k →
      lookupFs ((runBuild opts entries stack st).1).fs q = some k := by
  intro entries
  induction entries with
  | nil => intro stack st q k h; exact h
  | cons e rest ih =>
    intro stack st q k h
    unfold runBuild buildStep
    by_cases hdir : e.is_dir
    · simp only [hdir, if_true]
      have hm := ensure_dir_mono (composePath (stackMaintain stack e.depth)
        (trimEndSlashes e.name)) opts (eprintln_v opts.verbose 2
        (.debugMkdir (composePath (stackMaintain stack e.depth)
        (trimEndSlashes e.name))) st) q k hf (by rw [eprintln_v_fs]; exact h)
      cases hp : ensure_dir (composePath (stackMaintain stack e.depth)
          (trimEndSlashes e.name)) opts (eprintln_v opts.verbose 2
          (.debugMkdir (composePath (stackMaintain stack e.depth)
          (trimEndSlashes e.name))) st) with
      | mk st1 r =>
        rw [hp] at hm
        cases r with
        | none => exact ih _ _ _ _ hm
        | some err => exact hm
    · simp only [hdir, if_false]
      have hm := touch_file_mono (composePath (stackMaintain stack e.depth)
        (trimEndSlashes e.name)) opts (eprintln_v opts.verbose 2
        (.debugTouch (composePath (stackMaintain stack e.depth)
        (trimEndSlashes e.name))) st) q k hf (by rw [eprintln_v_fs]; exact h)
      cases hp : touch_file (composePath (stackMaintain stack e.depth)
          (trimEndSlashes e.name)) opts (eprintln_v opts.verbose 2
          (.debugTouch (composePath (stackMaintain stack e.depth)
          (trimEndSlashes e.name))) st) with
      | mk st1 r =>
        rw [hp] at hm
        cases r with
        | none => exact ih _ _ _ _ hm
        | some err => exact hm

theorem runBuild_idem_aux (opts : Options) (hf : opts.force = false)
    (hd : opts.dry_run = false) :
    ∀ (entries : List Entry) (stack : List Str) (st st2 : St),
      (runBuild opts entries stack st).2 = none →
      st2.fs = ((runBuild opts entries stack st).1).fs →
      (runBuild opts entries stack st2).2 = none ∧
      ((runBuild opts entries stack st2).1).fs = st2.fs ∧
      ((runBuild opts entries stack st2).1).out = st2.out := by
  intro entries
  induction entries with
  | nil => intro stack st st2 hsucc hfs; exact ⟨rfl, rfl, rfl⟩
  | cons e rest ih =>
    intro stack st st2 hsucc hfs
    unfold runBuild buildStep at hsucc hfs ⊢
    by_cases hdir : e.is_dir
    · simp only [hdir, if_true] at hsucc hfs ⊢
      cases hp : ensure_dir (composePath (stackMaintain stack e.depth)
          (trimEndSlashes e.name)) opts (eprintln_v opts.verbose 2
          (.debugMkdir (composePath (stackMaintain stack e.depth)
          (trimEndSlashes e.name))) st) with
      | mk st1 r =>
        rw [hp] at hsucc hfs
        cases r with
        | some err => simp at hsucc
        | none =>
          have hsucc2 : (runBuild opts rest (stackRecord (stackMaintain stack
              e.depth) e.depth (trimEndSlashes e.name)) st1).2 = none := hsucc
          have hfs2 : st2.fs = ((runBuild opts rest (stackRecord (stackMaintain
              stack e.depth) e.depth (trimEndSlashes e.name)) st1).1).fs := hfs
          have hpd : lookupFs st1.fs (composePath (stackMaintain stack e.depth)
              (trimEndSlashes e.name)) = some .dir := by
            have hh := ensure_dir_post (composePath (stackMaintain stack e.depth)
              (trimEndSlashes e.name)) opts (eprintln_v opts.verbose 2
              (.debugMkdir (composePath (stackMaintain stack e.depth)
              (trimEndSlashes e.name))) st) hd (by rw [hp])
            rw [hp] at hh
            exact hh
          have hst2 : lookupFs st2.fs (composePath (stackMaintain stack e.depth)
              (trimEndSlashes e.name)) = some .dir := by
            rw [hfs2]
            exact runBuild_mono opts hf rest _ st1 _ .dir hpd
          have hb2 : ensure_dir (composePath (stackMaintain stack e.depth)
              (trimEndSlashes e.name)) opts (eprintln_v opts.verbose 2
              (.debugMkdir (composePath (stackMaintain stack e.depth)
              (trimEndSlashes e.name))) st2) =
              (eprintln_v opts.verbose 2 (.debugMkdir (composePath (stackMaintain
                stack e.depth) (trimEndSlashes e.name))) st2, none) :=
            ensure_dir_noop _ _ _ (by rw [eprintln_v_fs]; exact hst2)
          rw [hb2]
          show (runBuild opts rest (stackRecord (stackMaintain stack e.depth)
              e.depth (trimEndSlashes e.name)) (eprintln_v opts.verbose 2
              (.debugMkdir (composePath (stackMaintain stack e.depth)
              (trimEndSlashes e.name))) st2)).2 = none ∧
            ((runBuild opts rest (stackRecord (stackMaintain stack e.depth)
              e.depth (trimEndSlashes e.name)) (eprintln_v opts.verbose 2
              (.debugMkdir (composePath (stackMaintain stack e.depth)
              (trimEndSlashes e.name))) st2)).1).fs = st2.fs ∧
            ((runBuild opts rest (stackRecord (stackMaintain stack e.depth)
              e.depth (trimEndSlashes e.name)) (eprintln_v opts.verbose 2
              (.debugMkdir (composePath (stackMaintain stack e.depth)
              (trimEndSlashes e.name))) st2)).1).out = st2.out
          obtain ⟨h1, h2, h3⟩ := ih (stackRecord (stackMaintain stack e.depth)
            e.depth (trimEndSlashes e.name)) st1 (eprintln_v opts.verbose 2
            (.debugMkdir (composePath (stackMaintain stack e.depth)
            (trimEndSlashes e.name))) st2) hsucc2
            (by rw [eprintln_v_fs]; exact hfs2)
          refine ⟨h1, ?_, ?_⟩
          · rw [h2, eprintln_v_fs]
          · rw [h3, eprintln_v_out]
    · simp only [hdir, if_false] at hsucc hfs ⊢
      cases hp : touch_file (composePath (stackMaintain stack e.depth)
          (trimEndSlashes e.name)) opts (eprintln_v opts.verbose 2
          (.debugTouch (composePath (stackMaintain stack e.depth)
          (trimEndSlashes e.name))) st) with
      | mk st1 r =>
        rw [hp] at hsucc hfs
        cases r with
        | some err => simp at hsucc
        | none =>
          have hsucc2 : (runBuild opts rest (stackMaintain stack e.depth)
              st1).2 = none := hsucc
          have hfs2 : st2.fs = ((runBuild opts rest (stackMaintain stack e.depth)
              st1).1).fs := hfs
          have hpost := touch_file_post (composePath (stackMaintain stack e.depth)
            (trimEndSlashes e.name)) opts (eprintln_v opts.verbose 2
            (.debugTouch (composePath (stackMaintain stack e.depth)
            (trimEndSlashes e.name))) st) hf hd (by rw [hp])
          rw [hp] at hpost
          obtain ⟨hpar, c, hfile⟩ := hpost
          have hpar2 : lookupFs st2.fs (composePath (stackMaintain stack e.depth)
              (trimEndSlashes e.name)).dropLast = some .dir := by
            rw [hfs2]
            exact runBuild_mono opts hf rest _ st1 _ .dir hpar
          have hfile2 : lookupFs st2.fs (composePath (stackMaintain stack e.depth)
              (trimEndSlashes e.name)) = some (.file c) := by
            rw [hfs2]
            exact runBuild_mono opts hf rest _ st1 _ (.file c) hfile
          have hb2 : touch_file (composePath (stackMaintain stack e.depth)
              (trimEndSlashes e.name)) opts (eprintln_v opts.verbose 2
              (.debugTouch (composePath (stackMaintain stack e.depth)
              (trimEndSlashes e.name))) st2) =
              (eprintln_v opts.verbose 2 (.debugTouch (composePath (stackMaintain
                stack e.depth) (trimEndSlashes e.name))) st2, none) :=
            touch_file_noop _ _ _ c (by rw [eprintln_v_fs]; exact hfile2)
              (by rw [eprintln_v_fs]; exact hpar2)
          rw [hb2]
          show (runBuild opts rest (stackMaintain stack e.depth)
              (eprintln_v opts.verbose 2 (.debugTouch (composePath (stackMaintain
              stack e.depth) (trimEndSlashes e.name))) st2)).2 = none ∧
            ((runBuild opts rest (stackMaintain stack e.depth)
              (eprintln_v opts.verbose 2 (.debugTouch (composePath (stackMaintain
              stack e.depth) (trimEndSlashes e.name))) st2)).1).fs = st2.fs ∧
            ((runBuild opts rest (stackMaintain stack e.depth)
              (eprintln_v opts.verbose 2 (.debugTouch (composePath (stackMaintain
              stack e.depth) (trimEndSlashes e.name))) st2)).1).out = st2.out
          obtain ⟨h1, h2, h3⟩ := ih (stackMaintain stack e.depth) st1
            (eprintln_v opts.verbose 2 (.debugTouch (composePath (stackMaintain
            stack e.depth) (trimEndSlashes e.name))) st2) hsucc2
            (by rw [eprintln_v_fs]; exact hfs2)
          refine ⟨h1, ?_, ?_⟩
          · rw [h2, eprintln_v_fs]
          · rw [h3, eprintln_v_out]

/-- C6: materialization is idempotent with `force = false` (and an actual,
non-dry run): an `ensure-file` on a path already holding a regular file (with
its parent a directory) is a success returning the world completely unchanged
— in particular the file's content is untouched; an `ensure-directory` on an
existing directory likewise returns the world unchanged; and whenever a full
builder run succeeds, running it again over the resulting filesystem succeeds
and changes neither the filesystem nor the normal-output stream. -/
theorem materialization_idempotent (opts : Options) (hf : opts.force = false)
    (hd : opts.dry_run = false) :
    (∀ (path : FsPath) (c : List Char) (st : St),
        lookupFs st.fs path = some (.file c) →
        lookupFs st.fs path.dropLast = some .dir →
        touch_file path opts st = (st, none)) ∧
    (∀ (path : FsPath) (st : St),
        lookupFs st.fs path = some .dir → ensure_dir path opts st = (st, none)) ∧
    (∀ (entries : List Entry) (stack : List Str) (st : St),
        (runBuild opts entries stack st).2 = none →
        (runBuild opts entries stack ((runBuild opts entries stack st).1)).2 =
          none ∧
        ((runBuild opts entries stack ((runBuild opts entries stack st).1)).1).fs =
          ((runBuild opts entries stack st).1).fs ∧
        ((runBuild opts entries stack ((runBuild opts entries stack st).1)).1).out =
          ((runBuild opts entries stack st).1).out) := by
  refine ⟨?_, ?_, ?_⟩
  · intro path c st hfile hparent
    exact touch_file_noop path opts st c hfile hparent
  · intro path st hdir
    exact ensure_dir_noop path opts st hdir
  · intro entries stack st hsucc
    exact runBuild_idem_aux opts hf hd entries stack st
      ((runBuild opts entries stack st).1) hsucc rfl

/-- Witness for C6: a touch on an existing file `a` (content preserved), an
ensure-directory on an existing directory `d`, and a one-entry build run
re-run over its own result. -/
theorem materialization_idempotent_witness :
    touch_file [['a']] ⟨false, false, 0⟩ ⟨[([['a']], .file ['h'])], [], []⟩ =
      (⟨[([['a']], .file ['h'])], [], []⟩, none) ∧
    ensure_dir [['d']] ⟨false, false, 0⟩ ⟨[([['d']], .dir)], [], []⟩ =
      (⟨[([['d']], .dir)], [], []⟩, none) ∧
    ((runBuild ⟨false, false, 0⟩ [⟨0, ['a'], false⟩] []
        ((runBuild ⟨false, false, 0⟩ [⟨0, ['a'], false⟩] [] ⟨[], [], []⟩).1)).2 =
      none ∧
     ((runBuild ⟨false, false, 0⟩ [⟨0, ['a'], false⟩] []
        ((runBuild ⟨false, false, 0⟩ [⟨0, ['a'], false⟩] [] ⟨[], [], []⟩).1)).1).fs =
      ((runBuild ⟨false, false, 0⟩ [⟨0, ['a'], false⟩] [] ⟨[], [], []⟩).1).fs ∧
     ((runBuild ⟨false, false, 0⟩ [⟨0, ['a'], false⟩] []
        ((runBuild ⟨false, false, 0⟩ [⟨0, ['a'], false⟩] [] ⟨[], [], []⟩).1)).1).out =
      ((runBuild ⟨false, false, 0⟩ [⟨0, ['a'], false⟩] [] ⟨[], [], []⟩).1).out) := by
  have h := materialization_idempotent ⟨false, false, 0⟩ rfl rfl
  exact ⟨h.1 [['a']] ['h'] ⟨[([['a']], .file ['h'])], [], []⟩ (by decide) (by decide),
    h.2.1 [['d']] ⟨[([['d']], .dir)], [], []⟩ (by decide),
    h.2.2 [⟨0, ['a'], false⟩] [] ⟨[], [], []⟩ (by decide)⟩

end Maketree
